import Mathlib

/-
Shallow embedding of the data layer of the PromptBuilder application
(src/app.py): a SQLite store with two tables, `folders` and `components`,
plus the tree operations, the export/import codec and the prompt assembly
used by the UI.

Modelling conventions:
- A table is a list of rows kept in ascending rowid order, which is the
  order in which SQLite scans a rowid table.  `INTEGER PRIMARY KEY` ids are
  rowids; a row inserted without an explicit id receives max(id)+1.
- The unique index on folders(parent_id, name) treats NULL parent_ids as
  pairwise distinct (SQLite semantics), so two rows with NULL parent never
  conflict with each other.
- Timestamps produced by datetime(now) are modelled as an explicit clock
  argument of type String.
- Statements that can raise sqlite3.IntegrityError are modelled with
  Except String.
-/

namespace PromptBuilder

/-- Row of the `folders` table: id PK, name NOT NULL, nullable parent
reference. -/
structure Folder where
  id : Nat
  name : String
  parent_id : Option Nat
deriving Repr, DecidableEq

/-- Row of the `components` table: id PK, name, content, nullable folder
reference, and the two timestamp columns. -/
structure Component where
  id : Nat
  name : String
  content : String
  folder_id : Option Nat
  created_at : String
  updated_at : String
deriving Repr, DecidableEq

/-- Contents of the two tables of the SQLite database. -/
structure DbState where
  folders : List Folder
  components : List Component
deriving Repr, DecidableEq

/-- Streamlit session state touched by the data-layer operations: the
builder order and the selected component. -/
structure Session where
  builder_list : List Nat
  selected_component_id : Option Nat
deriving Repr, DecidableEq

/-- SQLite assigns max(rowid)+1 to a row inserted without an explicit id. -/
def nextId (ids : List Nat) : Nat := ids.foldr max 0 + 1

/-- Python str.strip(): the string without its leading and trailing
whitespace, computed structurally on the character list. -/
def strip (s : String) : String :=
  ⟨((s.data.dropWhile Char.isWhitespace).reverse.dropWhile Char.isWhitespace).reverse⟩

/-- Insert a row into a table keeping the list in ascending id order. -/
def insertFolderRow (f : Folder) : List Folder → List Folder
  | [] => [f]
  | g :: gs => if f.id < g.id then f :: g :: gs else g :: insertFolderRow f gs

/-- Insert a component row keeping the list in ascending id order. -/
def insertComponentRow (c : Component) : List Component → List Component
  | [] => [c]
  | d :: ds => if c.id < d.id then c :: d :: ds else d :: insertComponentRow c ds

/-- Ids of all folder rows. -/
def folderIds (fs : List Folder) : List Nat := fs.map (·.id)

/-- Ids of all component rows. -/
def componentIds (cs : List Component) : List Nat := cs.map (·.id)

/-- Lookup of a folder row by id (SELECT * FROM folders WHERE id = ?). -/
def findFolder (fs : List Folder) (fid : Nat) : Option Folder :=
  fs.find? (fun f => f.id == fid)

/-- Source function get_folder. -/
def get_folder (st : DbState) (fid : Nat) : Option Folder :=
  findFolder st.folders fid

/-- Source function get_component (SELECT * FROM components WHERE id = ?). -/
def get_component (st : DbState) (cid : Nat) : Option Component :=
  st.components.find? (fun c => c.id == cid)

/-- Insertion step of an insertion sort by folder name (ORDER BY name,
binary collation, which agrees with the order on Lean strings). -/
def insertByName (f : Folder) : List Folder → List Folder
  | [] => [f]
  | g :: gs => if f.name ≤ g.name then f :: g :: gs else g :: insertByName f gs

/-- Insertion sort by folder name, modelling ORDER BY name. -/
def sortByName : List Folder → List Folder
  | [] => []
  | f :: fs => insertByName f (sortByName fs)

/-- Rows with the given parent, sorted by name: body of the source function
list_folders_by_parent (both the IS NULL and the = ? branch). -/
def foldersByParent (fs : List Folder) (parent_id : Option Nat) : List Folder :=
  sortByName (fs.filter (fun f => f.parent_id == parent_id))

/-- Source function list_folders_by_parent. -/
def list_folders_by_parent (st : DbState) (parent_id : Option Nat) : List Folder :=
  foldersByParent st.folders parent_id

/-- First folder row satisfying parent_id IS NULL AND name = home, in scan
order; this is what fetchone returns for the root query. -/
def homeRow (fs : List Folder) : Option Folder :=
  fs.find? (fun f => f.parent_id == none && f.name == "home")

/-- Source function get_home_folder_id: returns the id of the first root
row, inserting a fresh ('home', NULL) row first when none exists. -/
def get_home_folder_id (st : DbState) : DbState × Nat :=
  match homeRow st.folders with
  | some f => (st, f.id)
  | none =>
      let st1 : DbState :=
        ⟨insertFolderRow ⟨nextId (folderIds st.folders), "home", none⟩ st.folders,
         st.components⟩
      (st1, match homeRow st1.folders with | some f => f.id | none => 0)

/-- Source function init_db, run against an existing schema: the CREATE
IF NOT EXISTS statements are no-ops; the INSERT OR IGNORE of ('home', NULL)
never hits a conflict because NULL parent_ids are pairwise distinct under
the unique index, so it always inserts a fresh row; finally every component
with a NULL folder_id is reassigned to the first root row. -/
def init_db (st : DbState) : DbState :=
  let st1 : DbState :=
    ⟨insertFolderRow ⟨nextId (folderIds st.folders), "home", none⟩ st.folders,
     st.components⟩
  let home := match homeRow st1.folders with | some f => f.id | none => 0
  ⟨st1.folders,
   st1.components.map (fun c =>
     match c.folder_id with
     | none => { c with folder_id := some home }
     | some _ => c)⟩

/-- State of a freshly created database: init_db applied to empty tables. -/
def db0 : DbState := init_db ⟨[], []⟩

/-- Source function create_folder.  The INSERT can fail on the unique index
(parent_id, name) when the parent is non-null, or on the foreign key to the
parent; a row with NULL parent never conflicts on the unique index. -/
def create_folder (st : DbState) (name : String) (parent_id : Option Nat) :
    Except String (DbState × Nat) :=
  if (match parent_id with
      | some p => st.folders.any (fun f => f.parent_id == some p && f.name == name)
      | none => false) then
    .error "UNIQUE constraint failed: folders.parent_id, folders.name"
  else if (match parent_id with
      | some p => !(st.folders.any (fun f => f.id == p))
      | none => false) then
    .error "FOREIGN KEY constraint failed"
  else
    let fid := nextId (folderIds st.folders)
    .ok (⟨insertFolderRow ⟨fid, name, parent_id⟩ st.folders, st.components⟩, fid)

/-- Source function create_component: a missing folder_id defaults to the
root (possibly creating it); the INSERT stores an empty content and the
current timestamps, and enforces the foreign key to the folder. -/
def create_component (st : DbState) (now : String) (name : String)
    (folder_id : Option Nat) : Except String (DbState × Nat) :=
  let stfid := match folder_id with
    | none => get_home_folder_id st
    | some f => (st, f)
  let st1 := stfid.1
  let fid := stfid.2
  if !(st1.folders.any (fun f => f.id == fid)) then
    .error "FOREIGN KEY constraint failed"
  else
    let cid := nextId (componentIds st1.components)
    .ok (⟨st1.folders,
          insertComponentRow ⟨cid, name, "", some fid, now, now⟩ st1.components⟩, cid)

/-- Ids collected by the worklist of get_descendant_folder_ids.  The Python
stack pops from its end; the model keeps the top of the stack at the head,
so freshly pushed children appear reversed.  The list of collected ids grows
in the same order as in the source. -/
def descendantLoop (fs : List Folder) : Nat → List Nat → List Nat → List Nat
  | 0, ids, _ => ids
  | _ + 1, ids, [] => ids
  | fuel + 1, ids, pid :: rest =>
      let cs := (foldersByParent fs pid).map (·.id)
      descendantLoop fs fuel (ids ++ cs) (cs.reverse ++ rest)

/-- Source function get_descendant_folder_ids: worklist traversal over the
parent-to-children edges starting from fid, fid included.  On the acyclic
states the application produces, length folders + 1 iterations drain the
worklist, so that fuel reproduces the unbounded Python loop. -/
def get_descendant_folder_ids (st : DbState) (fid : Nat) : List Nat :=
  descendantLoop st.folders (st.folders.length + 1) [fid] [fid]

/-- Source function get_component_ids_in_folders (SELECT id FROM components
WHERE folder_id IN (...)); a NULL folder_id never matches IN. -/
def get_component_ids_in_folders (st : DbState) (fids : List Nat) : List Nat :=
  if fids.isEmpty then []
  else
    (st.components.filter (fun c =>
      match c.folder_id with
      | some g => fids.contains g
      | none => false)).map (·.id)

/-- Chain of folder ids obtained by following parent references upward from
x, x first; the walk stops at a row with NULL parent, at a missing row, or
when the fuel runs out. -/
def parentChain (fs : List Folder) : Nat → Nat → List Nat
  | 0, x => [x]
  | fuel + 1, x =>
      x :: (match findFolder fs x with
        | some f =>
          match f.parent_id with
          | some p => parentChain fs fuel p
          | none => []
        | none => [])

/-- Decidable form of (x lies in the subtree rooted at fid): the parent
chain of x passes through fid.  Fuel length fs is enough on the rooted
states the application produces. -/
def inSubtree (fs : List Folder) (fid x : Nat) : Bool :=
  (parentChain fs fs.length x).contains fid

/-- Effect of DELETE FROM folders WHERE id = fid under PRAGMA foreign_keys
= ON: the row and, through ON DELETE CASCADE on the self reference, every
row whose parent chain reaches fid are removed; components referencing a
removed folder get folder_id set to NULL through ON DELETE SET NULL.
Nothing happens when the row is absent. -/
def cascade_delete_folder (st : DbState) (fid : Nat) : DbState :=
  let dead : Nat → Bool := fun x =>
    st.folders.any (fun f => f.id == fid) && inSubtree st.folders fid x
  ⟨st.folders.filter (fun f => !(dead f.id)),
   st.components.map (fun c =>
     match c.folder_id with
     | some g => if dead g then { c with folder_id := none } else c
     | none => c)⟩

/-- Source function delete_folder_recursive: refuses to delete the root,
otherwise collects the descendant folder ids and the component ids inside
them, deletes those components (pruning the session builder list and the
selection), then deletes the folder row, cascading to the subtree. -/
def delete_folder_recursive (st : DbState) (sess : Session) (fid : Nat) :
    (DbState × Session) × (Bool × Option String) :=
  let sthome := get_home_folder_id st
  let st1 := sthome.1
  if fid == sthome.2 then
    ((st1, sess), (false, some "Cannot delete the \x27home\x27 folder."))
  else
    let fids := get_descendant_folder_ids st1 fid
    let cids := get_component_ids_in_folders st1 fids
    let st2 : DbState :=
      if cids.isEmpty then st1
      else ⟨st1.folders, st1.components.filter (fun c => !(cids.contains c.id))⟩
    let sess1 : Session :=
      if cids.isEmpty then sess
      else
        ⟨sess.builder_list.filter (fun cid => !(cids.contains cid)),
         match sess.selected_component_id with
         | some s => if cids.contains s then none else some s
         | none => none⟩
    let st3 := cascade_delete_folder st2 fid
    ((st3, sess1), (true, none))

/-- Source function build_folder_path, inner while loop: collect names
walking up parent references, stopping at a root row named home or at a
missing row; Python truthiness also treats a parent id equal to 0 like
NULL. -/
def pathWalk (fs : List Folder) : Nat → Option Folder → List String
  | 0, _ => []
  | _ + 1, none => []
  | fuel + 1, some f =>
      if f.parent_id == none && f.name == "home" then []
      else
        f.name :: pathWalk fs fuel (match f.parent_id with
          | some p => if p == 0 then none else findFolder fs p
          | none => none)

/-- Source function build_folder_path: the root label is the literal home;
any other folder is rendered as home followed by the collected names in
root-to-folder order, separated by slash delimiters. -/
def build_folder_path (st : DbState) (fid : Option Nat) : DbState × String :=
  let sthome := get_home_folder_id st
  let st1 := sthome.1
  match fid with
  | none => (st1, "home")
  | some f =>
      if f == sthome.2 then (st1, "home")
      else
        (st1, "home / " ++ String.intercalate " / "
          ((pathWalk st1.folders (st1.folders.length + 1) (findFolder st1.folders f)).reverse))

/-- Payload of the JSON snapshot produced by export_db_to_json and consumed
by import_db_from_json, after JSON parsing and after the top-level shape
check (a dict with a folders list and a components list); the schema tag
carries no data.  Row fields mirror the table columns. -/
structure Snapshot where
  folders : List Folder
  components : List Component
deriving Repr, DecidableEq

/-- Insertion sort of folder rows by id, modelling ORDER BY id. -/
def sortFoldersById : List Folder → List Folder
  | [] => []
  | f :: fs => insertFolderRow f (sortFoldersById fs)

/-- Insertion sort of component rows by id, modelling ORDER BY id. -/
def sortComponentsById : List Component → List Component
  | [] => []
  | c :: cs => insertComponentRow c (sortComponentsById cs)

/-- Source function export_db_to_json: full dump of both tables, each in
ascending id order. -/
def export_db_to_json (st : DbState) : Snapshot :=
  ⟨sortFoldersById st.folders, sortComponentsById st.components⟩

/-- One folder INSERT of the import loop.  PRAGMA foreign_keys = OFF is
issued after BEGIN, and that pragma is a no-op inside a transaction, so
foreign keys stay enforced: the parent of a non-null parent_id must already
be present (the row itself counts, the constraint being checked with the
new row in place).  The primary key and the unique (parent_id, name) index
are also enforced; NULL parent_ids never conflict on the latter. -/
def importInsertFolder (fs : List Folder) (f : Folder) :
    Except String (List Folder) :=
  if fs.any (fun g => g.id == f.id) then
    .error "UNIQUE constraint failed: folders.id"
  else if (match f.parent_id with
      | some p => !(p == f.id || fs.any (fun g => g.id == p))
      | none => false) then
    .error "FOREIGN KEY constraint failed"
  else if (match f.parent_id with
      | some p => fs.any (fun g => g.parent_id == some p && g.name == f.name)
      | none => false) then
    .error "UNIQUE constraint failed: folders.parent_id, folders.name"
  else
    .ok (insertFolderRow f fs)

/-- One component INSERT of the import loop, with the primary key and the
(still enforced) foreign key to folders checked; a NULL folder_id passes
the foreign key. -/
def importInsertComponent (fs : List Folder) (cs : List Component)
    (c : Component) : Except String (List Component) :=
  if cs.any (fun d => d.id == c.id) then
    .error "UNIQUE constraint failed: components.id"
  else if (match c.folder_id with
      | some g => !(fs.any (fun f => f.id == g))
      | none => false) then
    .error "FOREIGN KEY constraint failed"
  else
    .ok (insertComponentRow c cs)

/-- Source function import_db_from_json, after the shape check: inside one
transaction both tables are emptied and every snapshot row is inserted with
its original id; any failing INSERT rolls the whole transaction back and
the error propagates to the caller, so the previous tables survive
untouched.  After a successful COMMIT the source calls init_db on the new
contents. -/
def import_db_from_json (_st : DbState) (snap : Snapshot) :
    Except String DbState :=
  match snap.folders.foldlM importInsertFolder [] with
  | .error e => .error e
  | .ok fs =>
      match snap.components.foldlM (importInsertComponent fs) [] with
      | .error e => .error e
      | .ok cs => .ok (init_db ⟨fs, cs⟩)

/-- Effect of the Load button of show_import_dialog: on success the store
is replaced and the volatile builder list and free text are cleared; on an
exception the dialog shows the message and every piece of prior state is
kept. -/
def importAction (st : DbState) (sess : Session) (free_text : String)
    (snap : Snapshot) : (DbState × Session × String) × Option String :=
  match import_db_from_json st snap with
  | .ok st1 => ((st1, ⟨[], sess.selected_component_id⟩, ""), none)
  | .error e => ((st, sess, free_text), some e)

/-- Effect of the Create button of show_new_folder_dialog on the store:
create_folder is only called when the stripped name is nonempty, otherwise
a warning is shown and the store is untouched; an IntegrityError escapes
the dialog and also leaves the store untouched. -/
def newFolderDialogSubmit (st : DbState) (parent_id : Nat) (name : String) :
    DbState :=
  if !(strip name == "") then
    match create_folder st (strip name) (some parent_id) with
    | .ok r => r.1
    | .error _ => st
  else st

/-- Effect of the Create button of show_new_component_dialog on the store:
create_component is only called when the stripped name is nonempty. -/
def newComponentDialogSubmit (st : DbState) (now : String) (folder_id : Nat)
    (name : String) : DbState :=
  if !(strip name == "") then
    match create_component st now (strip name) (some folder_id) with
    | .ok r => r.1
    | .error _ => st
  else st

/-- Source function build_prompt_text: contents of the still-existing
components of the builder list in order, followed by the stripped free
text when nonempty, joined with blank lines. -/
def build_prompt_text (st : DbState) (builder_list : List Nat)
    (free_text : String) : String :=
  let parts := builder_list.foldl (fun acc cid =>
    match get_component st cid with
    | some c => acc ++ [c.content]
    | none => acc) []
  let free := strip free_text
  let parts1 := if free == "" then parts else parts ++ [free]
  String.intercalate "\n\n" parts1

/-- Walk of parent references from x that reaches a row with NULL parent
within the given fuel; every intermediate id must be a present row. -/
def rooted (fs : List Folder) : Nat → Nat → Bool
  | 0, _ => false
  | fuel + 1, x =>
      match findFolder fs x with
      | none => false
      | some f =>
        match f.parent_id with
        | none => true
        | some p => rooted fs fuel p

/-- Well-formed folder table: distinct ids, every id positive (SQLite
rowids are positive), and every parent chain reaches a root row within
length fs steps, which rules out cycles and dangling parent references. -/
def WFF (fs : List Folder) : Prop :=
  (folderIds fs).Nodup ∧
  (∀ f ∈ fs, 0 < f.id) ∧
  (∀ f ∈ fs, rooted fs fs.length f.id = true)

instance (fs : List Folder) : Decidable (WFF fs) := by
  unfold WFF; infer_instance

/-- Number of parent steps from x to the root row of its chain, when the
walk terminates within the given fuel (analysis measure for the rooted
walks). -/
def rootDist (fs : List Folder) : Nat → Nat → Option Nat
  | 0, _ => none
  | fuel + 1, x =>
      match findFolder fs x with
      | none => none
      | some f =>
        match f.parent_id with
        | none => some 0
        | some p => (rootDist fs fuel p).map (· + 1)

/-- Names along the parent chain of a folder, in root-to-folder order with
the root itself excluded.  Modelled from the spec: a slash-delimited
ancestry path from root to the given folder, one segment per ancestor
including the folder itself, walking parent references until the root. -/
def ancestorNames (fs : List Folder) (root : Nat) : Nat → Nat → List String
  | 0, _ => []
  | fuel + 1, x =>
      if x == root then []
      else
        match findFolder fs x with
        | none => []
        | some f =>
          (match f.parent_id with
           | some p => ancestorNames fs root fuel p
           | none => []) ++ [f.name]

/-- Store produced by exporting the fresh database and importing the
snapshot back into it (the round trip of the codec). -/
def roundTripState : DbState :=
  (import_db_from_json db0 (export_db_to_json db0)).toOption.getD db0

/-- Example store used by concrete witnesses: home(1) contains a(2) and
c(4), a(2) contains b(3); one component in each folder. -/
def treeEx : DbState :=
  ⟨[⟨1, "home", none⟩, ⟨2, "a", some 1⟩, ⟨3, "b", some 2⟩, ⟨4, "c", some 1⟩],
   [⟨1, "p", "P", some 2, "t1", "t1"⟩, ⟨2, "q", "Q", some 3, "t2", "t2"⟩,
    ⟨3, "r", "R", some 4, "t3", "t3"⟩, ⟨4, "s", "S", some 1, "t4", "t4"⟩]⟩

/-- Example session used by concrete witnesses. -/
def sessEx : Session := ⟨[1, 3, 2], some 2⟩

/-- Snapshot whose second folder row repeats an id, so that its second
INSERT fails on the primary key. -/
def dupIdSnap : Snapshot := ⟨[⟨1, "home", none⟩, ⟨1, "x", some 1⟩], []⟩

/-- Snapshot containing a component whose folder_id references a folder id
absent from the folders list. -/
def danglingSnap : Snapshot :=
  ⟨[⟨1, "home", none⟩], [⟨1, "a", "", some 99, "t", "t"⟩]⟩

/-- Test of the premise of the self-heal scenario: the snapshot holds a
component whose folder_id is a non-null id absent from the snapshot folder
list. -/
def hasDanglingComponent (snap : Snapshot) : Bool :=
  snap.components.any (fun c =>
    match c.folder_id with
    | some g => !((folderIds snap.folders).contains g)
    | none => false)

/-
Basic lemmas about the embedding.
-/

theorem mem_insertFolderRow {a f : Folder} {fs : List Folder} :
    a ∈ insertFolderRow f fs ↔ a = f ∨ a ∈ fs := by
  induction fs with
  | nil => simp [insertFolderRow]
  | cons g gs ih =>
      by_cases h : f.id < g.id
      · simp [insertFolderRow, h]
      · simp [insertFolderRow, h, ih]
        tauto

theorem insertByName_perm (f : Folder) (l : List Folder) :
    List.Perm (insertByName f l) (f :: l) := by
  induction l with
  | nil => simp [insertByName]
  | cons g gs ih =>
      by_cases h : f.name ≤ g.name
      · simp [insertByName, h]
      · simp only [insertByName, if_neg h]
        exact ((ih.cons g).trans (List.Perm.swap f g gs))

theorem sortByName_perm (l : List Folder) : List.Perm (sortByName l) l := by
  induction l with
  | nil => simp [sortByName]
  | cons f fs ih =>
      exact (insertByName_perm f (sortByName fs)).trans (ih.cons f)

theorem mem_sortByName {a : Folder} {l : List Folder} :
    a ∈ sortByName l ↔ a ∈ l := (sortByName_perm l).mem_iff

theorem mem_foldersByParent {a : Folder} {fs : List Folder} {p : Option Nat} :
    a ∈ foldersByParent fs p ↔ a ∈ fs ∧ a.parent_id = p := by
  simp [foldersByParent, mem_sortByName, List.mem_filter]

theorem descendantLoop_nil_stack (fs : List Folder) (fuel : Nat)
    (ids : List Nat) : descendantLoop fs fuel ids [] = ids := by
  cases fuel <;> rfl

theorem get_home_folder_id_of_homeRow {st : DbState} {h : Folder}
    (hh : homeRow st.folders = some h) :
    get_home_folder_id st = (st, h.id) := by
  unfold get_home_folder_id
  rw [hh]

theorem homeRow_mem {fs : List Folder} {h : Folder}
    (hh : homeRow fs = some h) : h ∈ fs :=
  List.mem_of_find?_eq_some hh

theorem mem_folderIds {x : Nat} {fs : List Folder} :
    x ∈ folderIds fs ↔ ∃ f ∈ fs, f.id = x := by
  simp [folderIds]

/-
Claim C8: prompt assembly.
-/

theorem buildParts_eq (st : DbState) (bl : List Nat) (init : List String) :
    bl.foldl (fun acc cid =>
      match get_component st cid with
      | some c => acc ++ [c.content]
      | none => acc) init
    = init ++ bl.filterMap (fun cid => (get_component st cid).map (·.content)) := by
  induction bl generalizing init with
  | nil => simp
  | cons x xs ih =>
      cases h : get_component st x with
      | none => simp [h, ih]
      | some c => simp [h, ih]

/-- Claim C8: for every builder order and free-text buffer the assembled
prompt is the concatenation, in order, of the contents of those components
that still exist (ids of missing components are skipped, never an error),
joined by exactly one blank line, with the stripped free text appended as
one further part when it is nonempty. -/
theorem c8_build_prompt_spec (st : DbState) (builder : List Nat)
    (free_text : String) :
    build_prompt_text st builder free_text =
      String.intercalate "\n\n"
        (builder.filterMap (fun cid => (get_component st cid).map (·.content)) ++
          (if strip free_text = "" then [] else [strip free_text])) := by
  simp only [build_prompt_text]
  rw [buildParts_eq]
  by_cases h : strip free_text = ""
  · simp [h]
  · simp [h]

/-
Claim C4: the root folder cannot be deleted.
-/

/-- Claim C4: on any store whose root row exists, delete_folder_recursive
applied to the root id fails with the human-readable protected-root message
and leaves the tables and the session exactly unchanged. -/
theorem c4_delete_root_fails (st : DbState) (sess : Session) (h : Folder)
    (hhome : homeRow st.folders = some h) :
    delete_folder_recursive st sess h.id =
      ((st, sess), (false, some "Cannot delete the \x27home\x27 folder.")) := by
  unfold delete_folder_recursive
  rw [get_home_folder_id_of_homeRow hhome]
  simp

/-- Witness for c4_delete_root_fails at the fresh store. -/
theorem c4_delete_root_fails_witness :
    homeRow db0.folders = some ⟨1, "home", none⟩ ∧
    delete_folder_recursive db0 sessEx 1 =
      ((db0, sessEx), (false, some "Cannot delete the \x27home\x27 folder.")) :=
  ⟨rfl, c4_delete_root_fails db0 sessEx ⟨1, "home", none⟩ rfl⟩

/-
Claim C7: name validation on creation.
-/

/-- Claim C7 counterexample: the store-level functions perform no name
validation: create_component with an empty name succeeds and changes the
component table, and create_folder with an empty name succeeds as well,
contradicting the claim that such calls are rejected with the tables
unchanged. -/
theorem c7_counterexample_store_accepts_blank :
    create_component db0 "now" "" none =
      .ok (⟨[⟨1, "home", none⟩], [⟨1, "", "", some 1, "now", "now"⟩]⟩, 1) ∧
    create_folder db0 "" (some 1) =
      .ok (⟨[⟨1, "home", none⟩, ⟨2, "", some 1⟩], []⟩, 2) ∧
    ([⟨1, "", "", some 1, "now", "now"⟩] : List Component) ≠ db0.components :=
  ⟨rfl, rfl, by decide⟩

/-- Claim C7 amended: the emptiness validation lives in the dialog layer:
whenever the stripped name is empty the create dialogs never call the store,
so both tables are unchanged by the attempt; the store-level create
functions themselves accept any name. -/
theorem c7_amended_dialog_rejects_blank (st : DbState) (now : String)
    (pid fid : Nat) (name : String) (hname : strip name = "") :
    newFolderDialogSubmit st pid name = st ∧
    newComponentDialogSubmit st now fid name = st := by
  unfold newFolderDialogSubmit newComponentDialogSubmit
  simp [hname]

/-- Witness for c7_amended_dialog_rejects_blank on a whitespace-only name. -/
theorem c7_amended_dialog_rejects_blank_witness :
    strip "  " = "" ∧
    (newFolderDialogSubmit treeEx 1 "  " = treeEx ∧
     newComponentDialogSubmit treeEx "now" 1 "  " = treeEx) :=
  ⟨rfl, c7_amended_dialog_rejects_blank treeEx "now" 1 1 "  " rfl⟩

/-
Claims C1 and C2: the export/import round trip and the root invariant.
-/

/-- Claim C1 (refuted, code bug): the export/import round trip is not the
identity: importing the export of the fresh store yields a second ('home',
NULL) folder row, because import ends by running init_db whose INSERT OR
IGNORE never conflicts (NULL parent_ids are pairwise distinct under the
unique index) and therefore always adds a fresh root row. -/
theorem c1_roundtrip_not_identity :
    import_db_from_json db0 (export_db_to_json db0) = .ok roundTripState ∧
    roundTripState = ⟨[⟨1, "home", none⟩, ⟨2, "home", none⟩], []⟩ ∧
    roundTripState.folders ≠ db0.folders :=
  ⟨rfl, rfl, by decide⟩

/-- Claim C2 (refuted, code bug): the state reached from the fresh store by
the public operations export followed by import carries two folder rows
with NULL parent named home, violating the exactly-one-root invariant,
which does hold on the fresh store. -/
theorem c2_two_roots_reachable :
    (roundTripState.folders.filter
        (fun f => f.parent_id == none && f.name == "home")).length = 2 ∧
    (db0.folders.filter
        (fun f => f.parent_id == none && f.name == "home")).length = 1 :=
  ⟨rfl, rfl⟩

/-
Claim C5: import failures roll back.
-/

/-- Claim C5: when any insertion performed during import fails, the whole
transaction rolls back: the caller keeps exactly the prior tables, builder
list and free text, and the failure message is surfaced. -/
theorem c5_import_rollback (st : DbState) (sess : Session)
    (free_text : String) (snap : Snapshot) (e : String)
    (herr : import_db_from_json st snap = .error e) :
    importAction st sess free_text snap = ((st, sess, free_text), some e) := by
  unfold importAction
  rw [herr]

/-- Witness for c5_import_rollback: the second folder INSERT of dupIdSnap
fails on the primary key after the first one succeeded, and the nonempty
prior store survives unchanged. -/
theorem c5_import_rollback_witness :
    import_db_from_json treeEx dupIdSnap =
      .error "UNIQUE constraint failed: folders.id" ∧
    importAction treeEx sessEx "draft" dupIdSnap =
      ((treeEx, sessEx, "draft"), some "UNIQUE constraint failed: folders.id") :=
  ⟨rfl, c5_import_rollback treeEx sessEx "draft" dupIdSnap _ rfl⟩

/-
Claim C6: dangling folder references in an imported snapshot.
-/

theorem importInsertFolder_ok_ids {fs fs1 : List Folder} {f : Folder}
    (h : importInsertFolder fs f = .ok fs1) :
    ∀ x ∈ folderIds fs1, x = f.id ∨ x ∈ folderIds fs := by
  unfold importInsertFolder at h
  split at h
  · cases h
  · split at h
    · cases h
    · split at h
      · cases h
      · injection h with h1
        subst h1
        intro x hx
        rcases mem_folderIds.mp hx with ⟨a, ha, rfl⟩
        rcases mem_insertFolderRow.mp ha with rfl | ha1
        · exact .inl rfl
        · exact .inr (mem_folderIds.mpr ⟨a, ha1, rfl⟩)

theorem foldlM_importInsertFolder_ids {l : List Folder} :
    ∀ {acc fs : List Folder}, l.foldlM importInsertFolder acc = .ok fs →
      ∀ x ∈ folderIds fs, x ∈ folderIds acc ∨ ∃ g ∈ l, g.id = x := by
  induction l with
  | nil =>
      intro acc fs h x hx
      simp only [List.foldlM_nil] at h
      injection h with h1
      subst h1
      exact .inl hx
  | cons a l ih =>
      intro acc fs h x hx
      rw [List.foldlM_cons] at h
      cases hstep : importInsertFolder acc a with
      | error e => rw [hstep] at h; cases h
      | ok acc1 =>
          rw [hstep] at h
          rcases ih h x hx with hacc1 | ⟨g, hg, rfl⟩
          · rcases importInsertFolder_ok_ids hstep x hacc1 with rfl | hacc
            · exact .inr ⟨a, List.mem_cons_self a l, rfl⟩
            · exact .inl hacc
          · exact .inr ⟨g, List.mem_cons_of_mem a hg, rfl⟩

theorem importInsertComponent_ok_fk {fs : List Folder} {cs cs1 : List Component}
    {c : Component} (h : importInsertComponent fs cs c = .ok cs1) :
    c.folder_id = none ∨ ∃ g, c.folder_id = some g ∧ g ∈ folderIds fs := by
  unfold importInsertComponent at h
  split at h
  · cases h
  · split at h
    · cases h
    · rename_i hfk
      cases hfold : c.folder_id with
      | none => exact .inl rfl
      | some g =>
          refine .inr ⟨g, rfl, ?_⟩
          rw [hfold] at hfk
          have hany : fs.any (fun f => f.id == g) = true := by simpa using hfk
          rcases List.any_eq_true.mp hany with ⟨f, hf, hfg⟩
          exact mem_folderIds.mpr ⟨f, hf, by simpa using hfg⟩

theorem foldlM_importInsertComponent_fk {fs : List Folder}
    {l : List Component} :
    ∀ {acc cs : List Component},
      l.foldlM (importInsertComponent fs) acc = .ok cs →
      ∀ c ∈ l, c.folder_id = none ∨
        ∃ g, c.folder_id = some g ∧ g ∈ folderIds fs := by
  induction l with
  | nil => intro acc cs _ c hc; cases hc
  | cons a l ih =>
      intro acc cs h c hc
      rw [List.foldlM_cons] at h
      cases hstep : importInsertComponent fs acc a with
      | error e => rw [hstep] at h; cases h
      | ok acc1 =>
          rw [hstep] at h
          rcases List.mem_cons.mp hc with rfl | hc2
          · exact importInsertComponent_ok_fk hstep
          · exact ih h c hc2

/-- Claim C6 counterexample: a snapshot holding a component that references
a folder id absent from the snapshot folder list is never imported
successfully: the component INSERT fails on the still-enforced foreign key
(the disabling pragma is a no-op inside the transaction), so no state in
which that component sits in the root folder is ever produced. -/
theorem c6_counterexample_dangling_import_fails :
    hasDanglingComponent danglingSnap = true ∧
    import_db_from_json db0 danglingSnap =
      .error "FOREIGN KEY constraint failed" :=
  ⟨rfl, rfl⟩

/-- Claim C6 amended: importing a snapshot that contains a component whose
non-null folder_id is absent from the snapshot folder list always fails
(with the transaction rolled back, per the rollback theorem); only
components with a NULL folder_id are reassigned to the root by the
post-import init_db. -/
theorem import_ok_folds {st st1 : DbState} {snap : Snapshot}
    (h : import_db_from_json st snap = .ok st1) :
    ∃ fs cs, snap.folders.foldlM importInsertFolder [] = .ok fs ∧
      snap.components.foldlM (importInsertComponent fs) [] = .ok cs := by
  unfold import_db_from_json at h
  split at h
  · cases h
  · split at h
    · cases h
    · exact ⟨_, _, by assumption, by assumption⟩

theorem c6_amended_dangling_import_always_fails (st : DbState)
    (snap : Snapshot) (hdang : hasDanglingComponent snap = true) :
    ∃ e, import_db_from_json st snap = .error e := by
  rcases List.any_eq_true.mp hdang with ⟨c, hc, hcdang⟩
  cases himp : import_db_from_json st snap with
  | error e => exact ⟨e, rfl⟩
  | ok st1 =>
      exfalso
      rcases import_ok_folds himp with ⟨fs, cs, hf, hcomp⟩
      cases hfold : c.folder_id with
      | none => rw [hfold] at hcdang; cases hcdang
      | some g =>
          rw [hfold] at hcdang
          have hcdang1 : ¬ (g ∈ folderIds snap.folders) := by simpa using hcdang
          have hgmem : g ∈ folderIds fs := by
            rcases foldlM_importInsertComponent_fk hcomp c hc with h0 | ⟨g1, hg1, hm⟩
            · rw [hfold] at h0; cases h0
            · rw [hfold] at hg1; injection hg1 with hg2; rwa [hg2]
          rcases foldlM_importInsertFolder_ids hf g hgmem with h0 | ⟨f, hfmem, rfl⟩
          · cases h0
          · exact hcdang1 (mem_folderIds.mpr ⟨f, hfmem, rfl⟩)

/-- Witness for c6_amended_dangling_import_always_fails at the concrete
dangling snapshot. -/
theorem c6_amended_dangling_import_always_fails_witness :
    hasDanglingComponent danglingSnap = true ∧
    ∃ e, import_db_from_json treeEx danglingSnap = .error e :=
  ⟨rfl, c6_amended_dangling_import_always_fails treeEx danglingSnap rfl⟩

/-
Claim C10: deleting an absent folder id.
-/

/-- Claim C10: on a store whose root row exists and whose referential
integrity holds (no folder and no component references the absent id),
delete_folder_recursive applied to a folder id absent from the folders
table returns success with no failure reason, and the folders table, the
components table and the session are unchanged: a missing target is
treated as already gone. -/
theorem c10_delete_absent_folder (st : DbState) (sess : Session) (fid : Nat)
    (h : Folder) (hhome : homeRow st.folders = some h)
    (habs : fid ∉ folderIds st.folders)
    (hpar : ∀ f ∈ st.folders, f.parent_id ≠ some fid)
    (hcomp : ∀ c ∈ st.components, c.folder_id ≠ some fid) :
    delete_folder_recursive st sess fid = ((st, sess), (true, none)) := by
  have hne : (fid == h.id) = false := by
    have hmem : h.id ∈ folderIds st.folders :=
      mem_folderIds.mpr ⟨h, homeRow_mem hhome, rfl⟩
    simp only [beq_eq_false_iff_ne, ne_eq]
    rintro rfl
    exact habs hmem
  have hany : (st.folders.any (fun f => f.id == fid)) = false := by
    simp only [List.any_eq_false]
    intro f hf
    simp only [beq_iff_eq]
    rintro rfl
    exact habs (mem_folderIds.mpr ⟨f, hf, rfl⟩)
  have hchildren : foldersByParent st.folders (some fid) = [] := by
    unfold foldersByParent
    rw [List.filter_eq_nil_iff.mpr]
    · rfl
    · intro f hf
      simpa using hpar f hf
  have hdesc : get_descendant_folder_ids st fid = [fid] := by
    unfold get_descendant_folder_ids descendantLoop
    rw [hchildren]
    simpa using descendantLoop_nil_stack st.folders st.folders.length [fid]
  have hcids : get_component_ids_in_folders st [fid] = [] := by
    unfold get_component_ids_in_folders
    rw [if_neg (by simp), List.filter_eq_nil_iff.mpr]
    · rfl
    · intro c hc
      cases hcf : c.folder_id with
      | none => simp
      | some g =>
          simp only [List.contains_cons, List.contains_nil, Bool.or_false,
            beq_iff_eq, Bool.not_eq_true]
          have := hcomp c hc
          rw [hcf] at this
          intro hgf
          exact this (by rw [hgf])
  have hcascade : cascade_delete_folder st fid = st := by
    unfold cascade_delete_folder
    simp only [hany, Bool.false_and]
    refine congrArg₂ DbState.mk ?_ ?_
    · simp [List.filter_true]
    · have : ∀ c ∈ st.components,
          (match c.folder_id with
           | some g => if false = true then { c with folder_id := none } else c
           | none => c) = c := by
        intro c _
        cases c.folder_id <;> simp
      calc st.components.map _ = st.components.map id :=
            List.map_congr_left (by intro c hc; rw [this c hc]; rfl)
        _ = st.components := List.map_id st.components
  unfold delete_folder_recursive
  rw [get_home_folder_id_of_homeRow hhome]
  simp only [hne, Bool.false_eq_true, if_false, hdesc, hcids, List.isEmpty_nil,
    if_true, hcascade]

/-- Witness for c10_delete_absent_folder at the example store with the
absent folder id 9. -/
theorem c10_delete_absent_folder_witness :
    homeRow treeEx.folders = some ⟨1, "home", none⟩ ∧
    9 ∉ folderIds treeEx.folders ∧
    delete_folder_recursive treeEx sessEx 9 = ((treeEx, sessEx), (true, none)) :=
  ⟨rfl, by decide,
   c10_delete_absent_folder treeEx sessEx 9 ⟨1, "home", none⟩ rfl
     (by decide) (by decide) (by decide)⟩

/-
Toolkit about parent chains and rooted walks, used by the traversal
claims.
-/

theorem findFolder_mem {fs : List Folder} {x : Nat} {f : Folder}
    (h : findFolder fs x = some f) : f ∈ fs ∧ f.id = x := by
  refine ⟨List.mem_of_find?_eq_some h, ?_⟩
  have := List.find?_some h
  simpa using this

theorem findFolder_eq_of_mem {fs : List Folder}
    (hnd : (folderIds fs).Nodup) {f : Folder} (hf : f ∈ fs) :
    findFolder fs f.id = some f := by
  induction fs with
  | nil => cases hf
  | cons g gs ih =>
      rw [folderIds, List.map_cons, List.nodup_cons] at hnd
      rcases List.mem_cons.mp hf with rfl | hf1
      · simp [findFolder]
      · have hneq : (g.id == f.id) = false := by
          simp only [beq_eq_false_iff_ne, ne_eq]
          intro he
          exact hnd.1 (by rw [he]; exact List.mem_map_of_mem _ hf1)
        unfold findFolder at ih ⊢
        rw [List.find?_cons, hneq]
        exact ih hnd.2 hf1

theorem length_pos_of_findFolder {fs : List Folder} {x : Nat} {f : Folder}
    (h : findFolder fs x = some f) : 0 < fs.length :=
  List.length_pos_of_mem (findFolder_mem h).1

theorem rooted_succ_absent {fs : List Folder} {x : Nat}
    (hrow : findFolder fs x = none) (k : Nat) :
    rooted fs (k + 1) x = false := by
  simp [rooted, hrow]

theorem rooted_succ_root {fs : List Folder} {x : Nat} {f : Folder}
    (hrow : findFolder fs x = some f) (hp : f.parent_id = none) (k : Nat) :
    rooted fs (k + 1) x = true := by
  simp [rooted, hrow, hp]

theorem rooted_succ_step {fs : List Folder} {x p : Nat} {f : Folder}
    (hrow : findFolder fs x = some f) (hp : f.parent_id = some p) (k : Nat) :
    rooted fs (k + 1) x = rooted fs k p := by
  simp [rooted, hrow, hp]

theorem rootDist_succ_absent {fs : List Folder} {x : Nat}
    (hrow : findFolder fs x = none) (k : Nat) :
    rootDist fs (k + 1) x = none := by
  simp [rootDist, hrow]

theorem rootDist_succ_root {fs : List Folder} {x : Nat} {f : Folder}
    (hrow : findFolder fs x = some f) (hp : f.parent_id = none) (k : Nat) :
    rootDist fs (k + 1) x = some 0 := by
  simp [rootDist, hrow, hp]

theorem rootDist_succ_step {fs : List Folder} {x p : Nat} {f : Folder}
    (hrow : findFolder fs x = some f) (hp : f.parent_id = some p) (k : Nat) :
    rootDist fs (k + 1) x = (rootDist fs k p).map (· + 1) := by
  simp [rootDist, hrow, hp]

theorem parentChain_succ_absent {fs : List Folder} {x : Nat}
    (hrow : findFolder fs x = none) (k : Nat) :
    parentChain fs (k + 1) x = [x] := by
  simp [parentChain, hrow]

theorem rooted_present {fs : List Folder} {k x : Nat}
    (h : rooted fs k x = true) : ∃ f, findFolder fs x = some f := by
  cases k with
  | zero => simp [rooted] at h
  | succ k =>
      cases hrow : findFolder fs x with
      | none => rw [rooted_succ_absent hrow] at h; cases h
      | some f => exact ⟨f, rfl⟩

theorem rooted_step {fs : List Folder} {k x p : Nat} {f : Folder}
    (hrow : findFolder fs x = some f) (hp : f.parent_id = some p)
    (h : rooted fs (k + 1) x = true) : rooted fs k p = true := by
  rwa [rooted_succ_step hrow hp] at h

theorem rooted_mono {fs : List Folder} {k m x : Nat}
    (h : rooted fs k x = true) (hkm : k ≤ m) : rooted fs m x = true := by
  induction k generalizing x m with
  | zero => simp [rooted] at h
  | succ k ih =>
      obtain ⟨m1, rfl⟩ : ∃ m1, m = m1 + 1 := ⟨m - 1, by omega⟩
      cases hrow : findFolder fs x with
      | none => rw [rooted_succ_absent hrow] at h; cases h
      | some f =>
          cases hp : f.parent_id with
          | none => rw [rooted_succ_root hrow hp]
          | some p =>
              rw [rooted_succ_step hrow hp] at h ⊢
              exact ih h (by omega)

theorem mem_parentChain_self (fs : List Folder) (fuel x : Nat) :
    x ∈ parentChain fs fuel x := by
  cases fuel <;> simp [parentChain]

theorem parentChain_succ_some {fs : List Folder} {x p : Nat} {f : Folder}
    (hrow : findFolder fs x = some f) (hp : f.parent_id = some p)
    (fuel : Nat) :
    parentChain fs (fuel + 1) x = x :: parentChain fs fuel p := by
  simp [parentChain, hrow, hp]

theorem parentChain_succ_none {fs : List Folder} {x : Nat} {f : Folder}
    (hrow : findFolder fs x = some f) (hp : f.parent_id = none)
    (fuel : Nat) :
    parentChain fs (fuel + 1) x = [x] := by
  simp [parentChain, hrow, hp]

theorem parentChain_stable {fs : List Folder} {k x : Nat}
    (h : rooted fs k x = true) :
    ∀ m, k ≤ m → parentChain fs m x = parentChain fs k x := by
  induction k generalizing x with
  | zero => simp [rooted] at h
  | succ k ih =>
      intro m hm
      obtain ⟨m1, rfl⟩ : ∃ m1, m = m1 + 1 := ⟨m - 1, by omega⟩
      cases hrow : findFolder fs x with
      | none => rw [rooted_succ_absent hrow] at h; cases h
      | some f =>
          cases hp : f.parent_id with
          | none => simp [parentChain, hrow, hp]
          | some p =>
              rw [rooted_succ_step hrow hp] at h
              rw [parentChain_succ_some hrow hp, parentChain_succ_some hrow hp,
                ih h m1 (by omega)]

theorem contains_eq_true_iff {l : List Nat} {a : Nat} :
    l.contains a = true ↔ a ∈ l := List.elem_iff

theorem inSubtree_self (fs : List Folder) (fid : Nat) :
    inSubtree fs fid fid = true := by
  unfold inSubtree
  exact List.elem_iff.mpr (mem_parentChain_self fs fs.length fid)

theorem inSubtree_root {fs : List Folder} {fid x : Nat} {f : Folder}
    (hrow : findFolder fs x = some f) (hp : f.parent_id = none) :
    inSubtree fs fid x = true ↔ x = fid := by
  obtain ⟨n, hn⟩ : ∃ n, fs.length = n + 1 :=
    ⟨fs.length - 1, by have := length_pos_of_findFolder hrow; omega⟩
  unfold inSubtree
  rw [hn, parentChain_succ_none hrow hp, contains_eq_true_iff]
  simp [eq_comm]

theorem inSubtree_step {fs : List Folder} {fid x p : Nat} {f : Folder}
    (hrow : findFolder fs x = some f) (hp : f.parent_id = some p)
    (hrooted : rooted fs fs.length x = true) :
    inSubtree fs fid x = true ↔ (x = fid ∨ inSubtree fs fid p = true) := by
  obtain ⟨n, hn⟩ : ∃ n, fs.length = n + 1 :=
    ⟨fs.length - 1, by have := length_pos_of_findFolder hrow; omega⟩
  have hrp : rooted fs n p = true := by
    rw [hn] at hrooted; exact rooted_step hrow hp hrooted
  unfold inSubtree
  rw [hn, parentChain_succ_some hrow hp,
    show parentChain fs n p = parentChain fs (n + 1) p from
      (parentChain_stable hrp (n + 1) (by omega)).symm,
    contains_eq_true_iff, contains_eq_true_iff]
  simp [eq_comm]

theorem present_rooted {fs : List Folder}
    (hall : ∀ f ∈ fs, rooted fs fs.length f.id = true)
    {x : Nat} {fx : Folder} (hrow : findFolder fs x = some fx) :
    rooted fs fs.length x = true := by
  obtain ⟨hmem, hid⟩ := findFolder_mem hrow
  have h1 := hall fx hmem
  rwa [hid] at h1

theorem rootDist_isSome_of_rooted {fs : List Folder} {k x : Nat}
    (h : rooted fs k x = true) : ∃ d, rootDist fs k x = some d := by
  induction k generalizing x with
  | zero => simp [rooted] at h
  | succ k ih =>
      cases hrow : findFolder fs x with
      | none => rw [rooted_succ_absent hrow] at h; cases h
      | some f =>
          cases hp : f.parent_id with
          | none => exact ⟨0, rootDist_succ_root hrow hp k⟩
          | some p =>
              rw [rooted_succ_step hrow hp] at h
              obtain ⟨d, hd⟩ := ih h
              exact ⟨d + 1, by rw [rootDist_succ_step hrow hp, hd]; rfl⟩

theorem rootDist_mono {fs : List Folder} {k m x d : Nat}
    (h : rootDist fs k x = some d) (hkm : k ≤ m) :
    rootDist fs m x = some d := by
  induction k generalizing x m d with
  | zero => simp [rootDist] at h
  | succ k ih =>
      obtain ⟨m1, rfl⟩ : ∃ m1, m = m1 + 1 := ⟨m - 1, by omega⟩
      cases hrow : findFolder fs x with
      | none => rw [rootDist_succ_absent hrow] at h; cases h
      | some f =>
          cases hp : f.parent_id with
          | none => rw [rootDist_succ_root hrow hp] at h ⊢; exact h
          | some p =>
              rw [rootDist_succ_step hrow hp] at h ⊢
              cases hdp : rootDist fs k p with
              | none => rw [hdp] at h; cases h
              | some dp => rw [hdp] at h; rw [ih hdp (by omega)]; exact h

theorem rootDist_parent_succ {fs : List Folder} {x p dx : Nat} {f : Folder}
    (hrow : findFolder fs x = some f) (hp : f.parent_id = some p)
    {k : Nat} (hdx : rootDist fs (k + 1) x = some dx) :
    ∃ dp, rootDist fs k p = some dp ∧ dx = dp + 1 := by
  rw [rootDist_succ_step hrow hp] at hdx
  cases hq : rootDist fs k p with
  | none => rw [hq] at hdx; cases hdx
  | some dp =>
      rw [hq] at hdx
      refine ⟨dp, rfl, ?_⟩
      simp only [Option.map_some', Option.some.injEq] at hdx
      omega

theorem chain_mem_depth_le {fs : List Folder}
    (hall : ∀ f ∈ fs, rooted fs fs.length f.id = true) :
    ∀ (m x y : Nat) (fx : Folder) (dx : Nat),
      findFolder fs x = some fx → rootDist fs fs.length x = some dx →
      y ∈ parentChain fs m x →
      ∃ dy, rootDist fs fs.length y = some dy ∧ dy ≤ dx := by
  intro m
  induction m with
  | zero =>
      intro x y fx dx hrow hdx hy
      simp only [parentChain, List.mem_singleton] at hy
      exact ⟨dx, by rw [hy]; exact hdx, le_refl _⟩
  | succ m ih =>
      intro x y fx dx hrow hdx hy
      cases hp : fx.parent_id with
      | none =>
          rw [parentChain_succ_none hrow hp] at hy
          have : y = x := by simpa using hy
          exact ⟨dx, by rw [this]; exact hdx, le_refl _⟩
      | some p =>
          rw [parentChain_succ_some hrow hp] at hy
          rcases List.mem_cons.mp hy with rfl | hy1
          · exact ⟨dx, hdx, le_refl _⟩
          · obtain ⟨n, hn⟩ : ∃ n, fs.length = n + 1 :=
              ⟨fs.length - 1, by have := length_pos_of_findFolder hrow; omega⟩
            have hrx := present_rooted hall hrow
            have hrp : rooted fs n p = true := by
              rw [hn] at hrx; exact rooted_step hrow hp hrx
            obtain ⟨fp, hfp⟩ := rooted_present hrp
            have hdx1 : rootDist fs (n + 1) x = some dx := by rwa [hn] at hdx
            obtain ⟨dp, hdpn, rfl⟩ := rootDist_parent_succ hrow hp hdx1
            have hdp : rootDist fs fs.length p = some dp :=
              rootDist_mono hdpn (by omega)
            obtain ⟨dy, hdy, hdyle⟩ := ih p y fp dp hfp hdp hy1
            exact ⟨dy, hdy, by omega⟩

theorem inSubtree_absent {fs : List Folder} {fid g : Nat}
    (hrow : findFolder fs g = none) (h : inSubtree fs fid g = true) :
    g = fid := by
  unfold inSubtree at h
  have hmem := List.elem_iff.mp h
  cases hn : fs.length with
  | zero =>
      rw [hn] at hmem
      simp only [parentChain, List.mem_singleton] at hmem
      exact hmem.symm
  | succ n =>
      rw [hn, parentChain_succ_absent hrow] at hmem
      simp only [List.mem_singleton] at hmem
      exact hmem.symm

theorem mem_childIds {fs : List Folder} {s c : Nat} :
    c ∈ (foldersByParent fs (some s)).map (·.id) ↔
      ∃ f ∈ fs, f.id = c ∧ f.parent_id = some s := by
  constructor
  · intro hc
    rcases List.mem_map.mp hc with ⟨f, hf, rfl⟩
    rcases mem_foldersByParent.mp hf with ⟨hf1, hf2⟩
    exact ⟨f, hf1, rfl, hf2⟩
  · rintro ⟨f, hf, rfl, hp⟩
    exact List.mem_map.mpr ⟨f, mem_foldersByParent.mpr ⟨hf, hp⟩, rfl⟩

theorem childIds_nodup {fs : List Folder}
    (hnd : (folderIds fs).Nodup) (s : Nat) :
    ((foldersByParent fs (some s)).map (·.id)).Nodup := by
  have hperm :
      List.Perm ((foldersByParent fs (some s)).map (·.id))
        ((fs.filter (fun f => f.parent_id == some s)).map (·.id)) :=
    (sortByName_perm _).map _
  refine hperm.nodup_iff.mpr ?_
  have hsub : List.Sublist ((fs.filter (fun f => f.parent_id == some s)).map (·.id))
      (folderIds fs) :=
    List.Sublist.map _ (List.filter_sublist fs)
  exact hsub.nodup hnd

theorem row_unique {fs : List Folder} (hnd : (folderIds fs).Nodup)
    {f g : Folder} (hf : f ∈ fs) (hg : g ∈ fs) (hid : f.id = g.id) :
    f = g :=
  List.inj_on_of_nodup_map hnd hf hg hid


/-- Step-down property of subtrees: a strict descendant of s lies in the
subtree of one of the children of s. -/
theorem subtree_step_down {fs : List Folder} {s : Nat}
    (hnd : (folderIds fs).Nodup)
    (hall : ∀ f ∈ fs, rooted fs fs.length f.id = true) :
    ∀ dy y, rootDist fs fs.length y = some dy → y ∈ folderIds fs →
      inSubtree fs s y = true → y ≠ s →
      ∃ c, (∃ f ∈ fs, f.id = c ∧ f.parent_id = some s) ∧
        inSubtree fs c y = true := by
  intro dy
  induction dy using Nat.strong_induction_on with
  | _ dy ih =>
      intro y hdy hymem hsub hne
      obtain ⟨fy, hfy, rfl⟩ : ∃ fy ∈ fs, fy.id = y := mem_folderIds.mp hymem
      have hrow : findFolder fs fy.id = some fy := findFolder_eq_of_mem hnd hfy
      have hry : rooted fs fs.length fy.id = true := hall fy hfy
      cases hp : fy.parent_id with
      | none =>
          rw [inSubtree_root hrow hp] at hsub
          exact absurd hsub hne
      | some p =>
          rw [inSubtree_step hrow hp hry] at hsub
          rcases hsub with h1 | hsubp
          · exact absurd h1 hne
          · by_cases hps : p = s
            · subst hps
              exact ⟨fy.id, ⟨fy, hfy, rfl, hp⟩, inSubtree_self fs fy.id⟩
            · obtain ⟨n, hn⟩ : ∃ n, fs.length = n + 1 :=
                ⟨fs.length - 1, by have := length_pos_of_findFolder hrow; omega⟩
              have hrp : rooted fs n p = true := by
                rw [hn] at hry; exact rooted_step hrow hp hry
              obtain ⟨fp, hfp⟩ := rooted_present hrp
              have hpmem : p ∈ folderIds fs :=
                mem_folderIds.mpr ⟨fp, (findFolder_mem hfp).1, (findFolder_mem hfp).2⟩
              have hdy1 : rootDist fs (n + 1) fy.id = some dy := by rwa [hn] at hdy
              obtain ⟨dp, hdpn, rfl⟩ := rootDist_parent_succ hrow hp hdy1
              have hdp : rootDist fs fs.length p = some dp :=
                rootDist_mono hdpn (by omega)
              obtain ⟨c, hc, hcp⟩ := ih dp (by omega) p hdp hpmem hsubp hps
              refine ⟨c, hc, ?_⟩
              rw [@inSubtree_step fs c fy.id p fy hrow hp hry]
              exact .inr hcp

theorem not_parent_inSubtree {fs : List Folder}
    (hall : ∀ f ∈ fs, rooted fs fs.length f.id = true)
    {fid s : Nat} {ff : Folder}
    (hrow : findFolder fs fid = some ff) (hp : ff.parent_id = some s)
    (hsub : inSubtree fs fid s = true) : False := by
  have hrfid := present_rooted hall hrow
  obtain ⟨dfid, hdfid⟩ := rootDist_isSome_of_rooted hrfid
  obtain ⟨n, hn⟩ : ∃ n, fs.length = n + 1 :=
    ⟨fs.length - 1, by have := length_pos_of_findFolder hrow; omega⟩
  have hrs : rooted fs n s = true := by
    rw [hn] at hrfid; exact rooted_step hrow hp hrfid
  obtain ⟨fsr, hfs⟩ := rooted_present hrs
  have hdfid1 : rootDist fs (n + 1) fid = some dfid := by rwa [hn] at hdfid
  obtain ⟨ds, hdsn, rfl⟩ := rootDist_parent_succ hrow hp hdfid1
  have hds : rootDist fs fs.length s = some ds := rootDist_mono hdsn (by omega)
  have hfidmem : fid ∈ parentChain fs fs.length s := by
    unfold inSubtree at hsub
    exact List.elem_iff.mp hsub
  obtain ⟨dy, hdy, hle⟩ :=
    chain_mem_depth_le hall fs.length s fid fsr ds hfs hds hfidmem
  rw [hdfid] at hdy
  injection hdy with h1
  omega

/-- Specification of the worklist loop of get_descendant_folder_ids: under
the loop invariants, enough fuel drains the stack and the collected ids are
exactly the present folders lying in the subtree of fid. -/
theorem descendantLoop_spec {fs : List Folder} {fid : Nat}
    (hnd : (folderIds fs).Nodup)
    (hall : ∀ f ∈ fs, rooted fs fs.length f.id = true) :
    ∀ (fuel : Nat) (ids stack : List Nat),
      ids.Nodup →
      stack.Nodup →
      (∀ s ∈ stack, s ∈ ids) →
      (∀ a ∈ ids, a ∈ folderIds fs ∧ inSubtree fs fid a = true) →
      (∀ y ∈ folderIds fs, inSubtree fs fid y = true →
        y ∈ ids ∨ ∃ s ∈ stack, inSubtree fs s y = true) →
      (∀ y, y ∈ ids ↔ (y = fid ∨ ∃ f ∈ fs, f.id = y ∧
        ∃ p, f.parent_id = some p ∧ p ∈ ids ∧ p ∉ stack)) →
      stack.length + (fs.length - ids.length) < fuel →
      ∀ a, a ∈ descendantLoop fs fuel ids stack ↔
        (a ∈ folderIds fs ∧ inSubtree fs fid a = true) := by
  intro fuel
  induction fuel with
  | zero => intro ids stack _ _ _ _ _ _ hfuel; exact absurd hfuel (by omega)
  | succ fuel ih =>
      intro ids stack hids hstk hstkids hsound hcover hinv6 hfuel a
      cases stack with
      | nil =>
          rw [descendantLoop_nil_stack]
          constructor
          · intro ha; exact hsound a ha
          · rintro ⟨hamem, hasub⟩
            rcases hcover a hamem hasub with hin | ⟨s, hs, _⟩
            · exact hin
            · cases hs
      | cons s rest =>
          have hstep : descendantLoop fs (fuel + 1) ids (s :: rest) =
              descendantLoop fs fuel
                (ids ++ (foldersByParent fs (some s)).map (·.id))
                (((foldersByParent fs (some s)).map (·.id)).reverse ++ rest) := rfl
          have hsmem : s ∈ ids := hstkids s (List.mem_cons_self s rest)
          have hssub : inSubtree fs fid s = true := (hsound s hsmem).2
          have hcmem : ∀ c ∈ (foldersByParent fs (some s)).map (·.id),
              ∃ f ∈ fs, f.id = c ∧ f.parent_id = some s :=
            fun c hc => mem_childIds.mp hc
          have hcnd : ((foldersByParent fs (some s)).map (·.id)).Nodup :=
            childIds_nodup hnd s
          have hcsound : ∀ c ∈ (foldersByParent fs (some s)).map (·.id),
              c ∈ folderIds fs ∧ inSubtree fs fid c = true := by
            intro c hc
            obtain ⟨f, hf, rfl, hp⟩ := hcmem c hc
            have hrow := findFolder_eq_of_mem hnd hf
            refine ⟨mem_folderIds.mpr ⟨f, hf, rfl⟩, ?_⟩
            rw [inSubtree_step hrow hp (hall f hf)]
            exact .inr hssub
          have hfresh : ∀ c ∈ (foldersByParent fs (some s)).map (·.id),
              c ∉ ids := by
            intro c hc hcin
            obtain ⟨f, hf, hfidc, hp⟩ := hcmem c hc
            rcases (hinv6 c).mp hcin with rfl | ⟨g, hg, hgid, p, hgp, hpin, hpstk⟩
            · have hrow : findFolder fs c = some f := by
                have := findFolder_eq_of_mem hnd hf
                rwa [hfidc] at this
              exact not_parent_inSubtree hall hrow hp hssub
            · have hgf : g = f := row_unique hnd hg hf (hgid.trans hfidc.symm)
              have hps : some p = some s := by rw [← hgp, hgf, hp]
              injection hps with hps1
              exact hpstk (by rw [hps1]; exact List.mem_cons_self s rest)
          have hsnotchild : s ∉ (foldersByParent fs (some s)).map (·.id) := by
            intro hs
            obtain ⟨f, hf, hfs, hp⟩ := hcmem s hs
            have hrow : findFolder fs s = some f := by
              have := findFolder_eq_of_mem hnd hf; rwa [hfs] at this
            exact not_parent_inSubtree hall hrow hp (inSubtree_self fs s)
          have hresttail : rest.Nodup := (List.nodup_cons.mp hstk).2
          have hsnotrest : s ∉ rest := (List.nodup_cons.mp hstk).1
          have hnodupids2 :
              (ids ++ (foldersByParent fs (some s)).map (·.id)).Nodup :=
            List.Nodup.append hids hcnd (fun x hx1 hx2 => hfresh x hx2 hx1)
          have hstk2 :
              ((((foldersByParent fs (some s)).map (·.id)).reverse) ++ rest).Nodup :=
            List.Nodup.append (List.nodup_reverse.mpr hcnd) hresttail
              (fun x hx1 hx2 =>
                hfresh x (List.mem_reverse.mp hx1)
                  (hstkids x (List.mem_cons_of_mem s hx2)))
          have hstkids2 : ∀ t ∈ (((foldersByParent fs (some s)).map (·.id)).reverse) ++ rest,
              t ∈ ids ++ (foldersByParent fs (some s)).map (·.id) := by
            intro t ht
            rcases List.mem_append.mp ht with h1 | h2
            · exact List.mem_append_right _ (List.mem_reverse.mp h1)
            · exact List.mem_append_left _ (hstkids t (List.mem_cons_of_mem s h2))
          have hsound2 : ∀ a1 ∈ ids ++ (foldersByParent fs (some s)).map (·.id),
              a1 ∈ folderIds fs ∧ inSubtree fs fid a1 = true := by
            intro a1 ha1
            rcases List.mem_append.mp ha1 with h1 | h2
            · exact hsound a1 h1
            · exact hcsound a1 h2
          have hcover2 : ∀ y ∈ folderIds fs, inSubtree fs fid y = true →
              y ∈ ids ++ (foldersByParent fs (some s)).map (·.id) ∨
              ∃ t ∈ (((foldersByParent fs (some s)).map (·.id)).reverse) ++ rest,
                inSubtree fs t y = true := by
            intro y hy hysub
            rcases hcover y hy hysub with h1 | ⟨t, ht, htsub⟩
            · exact .inl (List.mem_append_left _ h1)
            · rcases List.mem_cons.mp ht with rfl | htrest
              · by_cases hys : y = t
                · exact .inl (List.mem_append_left _ (by rw [hys]; exact hsmem))
                · have hry : rooted fs fs.length y = true := by
                    obtain ⟨fy, hfy, hfyid⟩ := mem_folderIds.mp hy
                    have := hall fy hfy; rwa [hfyid] at this
                  obtain ⟨dy, hdy⟩ := rootDist_isSome_of_rooted hry
                  obtain ⟨c, hcchild, hcy⟩ :=
                    subtree_step_down hnd hall dy y hdy hy htsub hys
                  exact .inr ⟨c, List.mem_append_left _
                    (List.mem_reverse.mpr (mem_childIds.mpr hcchild)), hcy⟩
              · exact .inr ⟨t, List.mem_append_right _ htrest, htsub⟩
          have hinv62 : ∀ y,
              y ∈ ids ++ (foldersByParent fs (some s)).map (·.id) ↔
              (y = fid ∨ ∃ f ∈ fs, f.id = y ∧ ∃ p, f.parent_id = some p ∧
                p ∈ ids ++ (foldersByParent fs (some s)).map (·.id) ∧
                p ∉ (((foldersByParent fs (some s)).map (·.id)).reverse) ++ rest) := by
            intro y
            constructor
            · intro hy
              rcases List.mem_append.mp hy with h1 | h2
              · rcases (hinv6 y).mp h1 with rfl | ⟨f, hf, hfy, p, hp, hpin, hpstk⟩
                · exact .inl rfl
                · refine .inr ⟨f, hf, hfy, p, hp, List.mem_append_left _ hpin, ?_⟩
                  intro hmem
                  rcases List.mem_append.mp hmem with hh1 | hh2
                  · exact hfresh p (List.mem_reverse.mp hh1) hpin
                  · exact hpstk (List.mem_cons_of_mem s hh2)
              · obtain ⟨f, hf, hfy, hp⟩ := hcmem y h2
                refine .inr ⟨f, hf, hfy, s, hp, List.mem_append_left _ hsmem, ?_⟩
                intro hmem
                rcases List.mem_append.mp hmem with hh1 | hh2
                · exact hsnotchild (List.mem_reverse.mp hh1)
                · exact hsnotrest hh2
            · rintro (rfl | ⟨f, hf, hfy, p, hp, hpin, hpstk⟩)
              · exact List.mem_append_left _ ((hinv6 y).mpr (.inl rfl))
              · have hpnotcs : p ∉ (foldersByParent fs (some s)).map (·.id) :=
                  fun hx => hpstk (List.mem_append_left _ (List.mem_reverse.mpr hx))
                have hpnotrest : p ∉ rest :=
                  fun hx => hpstk (List.mem_append_right _ hx)
                have hpids : p ∈ ids := by
                  rcases List.mem_append.mp hpin with h1 | h2
                  · exact h1
                  · exact absurd h2 hpnotcs
                by_cases hps : p = s
                · refine List.mem_append_right _ (mem_childIds.mpr ⟨f, hf, hfy, ?_⟩)
                  rw [hp, hps]
                · have hnot : p ∉ s :: rest := by
                    intro hx
                    rcases List.mem_cons.mp hx with h1 | h2
                    exacts [hps h1, hpnotrest h2]
                  exact List.mem_append_left _
                    ((hinv6 y).mpr (.inr ⟨f, hf, hfy, p, hp, hpids, hnot⟩))
          have hlen2 : ids.length +
              ((foldersByParent fs (some s)).map (·.id)).length ≤ fs.length := by
            have hsubset : ∀ x ∈ ids ++ (foldersByParent fs (some s)).map (·.id),
                x ∈ folderIds fs := fun x hx => (hsound2 x hx).1
            have hsp := List.subperm_of_subset hnodupids2 hsubset
            have hle := hsp.length_le
            simpa [folderIds] using hle
          have hfuel2 :
              ((((foldersByParent fs (some s)).map (·.id)).reverse) ++ rest).length +
                (fs.length - (ids ++ (foldersByParent fs (some s)).map (·.id)).length) <
                fuel := by
            simp only [List.length_append, List.length_reverse, List.length_cons] at hfuel ⊢
            omega
          rw [hstep]
          exact ih (ids ++ (foldersByParent fs (some s)).map (·.id))
            ((((foldersByParent fs (some s)).map (·.id)).reverse) ++ rest)
            hnodupids2 hstk2 hstkids2 hsound2 hcover2 hinv62 hfuel2 a

/-- Characterization of get_descendant_folder_ids on well-formed stores:
it collects exactly the present folder ids of the subtree of fid. -/
theorem get_descendant_folder_ids_spec {st : DbState} {fid : Nat}
    (hwf : WFF st.folders) (hfid : fid ∈ folderIds st.folders) :
    ∀ a, a ∈ get_descendant_folder_ids st fid ↔
      (a ∈ folderIds st.folders ∧ inSubtree st.folders fid a = true) := by
  obtain ⟨hnd, _, hall⟩ := hwf
  have hn1 : 1 ≤ st.folders.length := by
    rcases mem_folderIds.mp hfid with ⟨f, hf, _⟩
    exact List.length_pos_of_mem hf
  apply descendantLoop_spec hnd hall (st.folders.length + 1) [fid] [fid]
  · exact List.nodup_singleton fid
  · exact List.nodup_singleton fid
  · intro t ht; exact ht
  · intro a1 ha1
    rcases List.mem_singleton.mp ha1 with rfl
    exact ⟨hfid, inSubtree_self st.folders a1⟩
  · intro y _ hysub
    exact .inr ⟨fid, List.mem_singleton_self fid, hysub⟩
  · intro y
    constructor
    · intro hy
      exact .inl (List.mem_singleton.mp hy)
    · rintro (rfl | ⟨f, _, _, p, _, hpin, hpstk⟩)
      · exact List.mem_singleton_self y
      · exact absurd hpin hpstk
  · simp only [List.length_singleton]
    omega

/-
Claim C3: recursive deletion removes exactly the subtree.
-/

theorem mem_get_component_ids {st : DbState} {fids : List Nat}
    (hne : fids ≠ []) {i : Nat} :
    i ∈ get_component_ids_in_folders st fids ↔
      ∃ c ∈ st.components, c.id = i ∧
        ∃ g, c.folder_id = some g ∧ g ∈ fids := by
  unfold get_component_ids_in_folders
  rw [if_neg (by simpa [List.isEmpty_iff] using hne)]
  constructor
  · intro hmem
    rcases List.mem_map.mp hmem with ⟨c, hc, rfl⟩
    rcases List.mem_filter.mp hc with ⟨hc1, hc2⟩
    refine ⟨c, hc1, rfl, ?_⟩
    cases hg : c.folder_id with
    | none => rw [hg] at hc2; cases hc2
    | some g =>
        rw [hg] at hc2
        exact ⟨g, rfl, List.elem_iff.mp hc2⟩
  · rintro ⟨c, hc, rfl, g, hg, hgmem⟩
    refine List.mem_map.mpr ⟨c, List.mem_filter.mpr ⟨hc, ?_⟩, rfl⟩
    rw [hg]
    exact List.elem_iff.mpr hgmem

/-- Claim C3: for every non-root folder present in a well-formed store,
delete_folder_recursive removes exactly the folder rows of its subtree
(itself included) and exactly the component rows whose folder lies in that
subtree; every other folder and component row survives unchanged, and the
call reports success. -/
theorem c3_delete_folder_recursive_subtree (st : DbState) (sess : Session)
    (fid : Nat) (hwf : WFF st.folders)
    (hcompnd : (componentIds st.components).Nodup)
    (hfid : fid ∈ folderIds st.folders)
    (h : Folder) (hhome : homeRow st.folders = some h) (hne : fid ≠ h.id) :
    (delete_folder_recursive st sess fid).1.1 =
      ⟨st.folders.filter (fun f => !(inSubtree st.folders fid f.id)),
       st.components.filter (fun c =>
         match c.folder_id with
         | some g => !(inSubtree st.folders fid g)
         | none => true)⟩ ∧
    (delete_folder_recursive st sess fid).2 = (true, none) := by
  have hnd := hwf.1
  have hall := hwf.2.2
  have hfids := get_descendant_folder_ids_spec hwf hfid
  have hbeq : (fid == h.id) = false := by simp [hne]
  have hfidsne : get_descendant_folder_ids st fid ≠ [] := by
    intro hnil
    have := (hfids fid).mpr ⟨hfid, inSubtree_self st.folders fid⟩
    rw [hnil] at this
    cases this
  have hpresent_of_sub : ∀ g, inSubtree st.folders fid g = true →
      g ∈ folderIds st.folders := by
    intro g hg
    cases hrow : findFolder st.folders g with
    | some f =>
        exact mem_folderIds.mpr ⟨f, (findFolder_mem hrow).1, (findFolder_mem hrow).2⟩
    | none =>
        exfalso
        have hgfid := inSubtree_absent hrow hg
        rcases mem_folderIds.mp hfid with ⟨f, hf, hfeq⟩
        have : findFolder st.folders fid = some f := by
          have := findFolder_eq_of_mem hnd hf; rwa [hfeq] at this
        rw [hgfid] at hrow
        rw [hrow] at this
        cases this
  have hcmem : ∀ i, i ∈ get_component_ids_in_folders st
        (get_descendant_folder_ids st fid) ↔
      ∃ c ∈ st.components, c.id = i ∧
        ∃ g, c.folder_id = some g ∧ inSubtree st.folders fid g = true := by
    intro i
    rw [mem_get_component_ids hfidsne]
    constructor
    · rintro ⟨c, hc, rfl, g, hg, hgmem⟩
      exact ⟨c, hc, rfl, g, hg, ((hfids g).mp hgmem).2⟩
    · rintro ⟨c, hc, rfl, g, hg, hgsub⟩
      exact ⟨c, hc, rfl, g, hg, (hfids g).mpr ⟨hpresent_of_sub g hgsub, hgsub⟩⟩
  have hcbool : ∀ c ∈ st.components,
      ((get_component_ids_in_folders st
        (get_descendant_folder_ids st fid)).contains c.id) =
      (match c.folder_id with
       | some g => inSubtree st.folders fid g
       | none => false) := by
    intro c hc
    cases hg : c.folder_id with
    | none =>
        show (get_component_ids_in_folders st
          (get_descendant_folder_ids st fid)).contains c.id = false
        rw [Bool.eq_false_iff]
        intro hcon
        rcases (hcmem c.id).mp (contains_eq_true_iff.mp hcon) with
          ⟨c1, hc1, hc1id, g, hg1, _⟩
        have : c1 = c := List.inj_on_of_nodup_map hcompnd hc1 hc hc1id
        rw [this, hg] at hg1
        cases hg1
    | some g =>
        show (get_component_ids_in_folders st
          (get_descendant_folder_ids st fid)).contains c.id =
          inSubtree st.folders fid g
        cases hsub : inSubtree st.folders fid g with
        | true =>
            exact contains_eq_true_iff.mpr
              ((hcmem c.id).mpr ⟨c, hc, rfl, g, hg, hsub⟩)
        | false =>
            rw [Bool.eq_false_iff]
            intro hcon
            rcases (hcmem c.id).mp (contains_eq_true_iff.mp hcon) with
              ⟨c1, hc1, hc1id, g1, hg1, hsub1⟩
            have hcc : c1 = c := List.inj_on_of_nodup_map hcompnd hc1 hc hc1id
            rw [hcc, hg] at hg1
            injection hg1 with hgg
            rw [← hgg] at hsub1
            rw [hsub1] at hsub
            cases hsub
  have hfiltercomp :
      st.components.filter (fun c =>
        !((get_component_ids_in_folders st
          (get_descendant_folder_ids st fid)).contains c.id)) =
      st.components.filter (fun c =>
        match c.folder_id with
        | some g => !(inSubtree st.folders fid g)
        | none => true) := by
    apply List.filter_congr
    intro c hc
    rw [hcbool c hc]
    cases c.folder_id <;> rfl
  have hanyfid : (st.folders.any (fun f => f.id == fid)) = true := by
    rcases mem_folderIds.mp hfid with ⟨f, hf, hfeq⟩
    exact List.any_eq_true.mpr ⟨f, hf, by simp [hfeq]⟩
  have hcascade : ∀ (comps : List Component),
      cascade_delete_folder ⟨st.folders, comps⟩ fid =
      ⟨st.folders.filter (fun f => !(inSubtree st.folders fid f.id)),
       comps.map (fun c =>
         match c.folder_id with
         | some g => if inSubtree st.folders fid g then
             { c with folder_id := none } else c
         | none => c)⟩ := by
    intro comps
    unfold cascade_delete_folder
    simp only [hanyfid, Bool.true_and]
  have hmapid : ∀ (l : List Component),
      (∀ c ∈ l, (match c.folder_id with
        | some g => !(inSubtree st.folders fid g)
        | none => true) = true) →
      l.map (fun c =>
        match c.folder_id with
        | some g => if inSubtree st.folders fid g then
            { c with folder_id := none } else c
        | none => c) = l := by
    intro l hl
    have hid : ∀ c ∈ l,
        (match c.folder_id with
         | some g => if inSubtree st.folders fid g then
             { c with folder_id := none } else c
         | none => c) = c := by
      intro c hc
      have hcl := hl c hc
      cases hg : c.folder_id with
      | none => rfl
      | some g =>
          rw [hg] at hcl
          have : inSubtree st.folders fid g = false := by simpa using hcl
          simp [this]
    calc l.map _ = l.map id := List.map_congr_left hid
      _ = l := List.map_id l
  have hsurvive : ∀ c ∈ st.components.filter (fun c =>
        !((get_component_ids_in_folders st
          (get_descendant_folder_ids st fid)).contains c.id)),
      (match c.folder_id with
       | some g => !(inSubtree st.folders fid g)
       | none => true) = true := by
    intro c hc
    rcases List.mem_filter.mp hc with ⟨hc1, hc2⟩
    rw [hcbool c hc1] at hc2
    cases hg : c.folder_id with
    | none => rfl
    | some g => rw [hg] at hc2; simpa using hc2
  have hst2 : (if (get_component_ids_in_folders st
        (get_descendant_folder_ids st fid)).isEmpty then st
      else (⟨st.folders, st.components.filter (fun c =>
        !((get_component_ids_in_folders st
          (get_descendant_folder_ids st fid)).contains c.id))⟩ : DbState)) =
      ⟨st.folders, st.components.filter (fun c =>
        !((get_component_ids_in_folders st
          (get_descendant_folder_ids st fid)).contains c.id))⟩ := by
    cases hemp : (get_component_ids_in_folders st
        (get_descendant_folder_ids st fid)).isEmpty with
    | false => rw [if_neg (by simp [hemp])]
    | true =>
        rw [if_pos (by simp [hemp])]
        have hnil : get_component_ids_in_folders st
            (get_descendant_folder_ids st fid) = [] :=
          List.isEmpty_iff.mp hemp
        rw [hnil]
        have : st.components.filter (fun c => !(([] : List Nat).contains c.id)) =
            st.components := by
          apply List.filter_eq_self.mpr
          intro c _
          rfl
        rw [this]
  unfold delete_folder_recursive
  rw [get_home_folder_id_of_homeRow hhome]
  simp only [hbeq, Bool.false_eq_true, if_false]
  constructor
  · rw [hst2, hcascade, hmapid _ hsurvive, hfiltercomp]
  · trivial

/-- Witness for c3_delete_folder_recursive_subtree: deleting folder 2 of
the example store removes folders 2 and 3 together with their two
components, and keeps everything else. -/
theorem c3_delete_folder_recursive_subtree_witness :
    WFF treeEx.folders ∧
    (componentIds treeEx.components).Nodup ∧
    2 ∈ folderIds treeEx.folders ∧
    homeRow treeEx.folders = some ⟨1, "home", none⟩ ∧
    (2 : Nat) ≠ (Folder.mk 1 "home" none).id ∧
    ((delete_folder_recursive treeEx sessEx 2).1.1 =
      ⟨treeEx.folders.filter (fun f => !(inSubtree treeEx.folders 2 f.id)),
       treeEx.components.filter (fun c =>
         match c.folder_id with
         | some g => !(inSubtree treeEx.folders 2 g)
         | none => true)⟩ ∧
     (delete_folder_recursive treeEx sessEx 2).2 = (true, none)) :=
  ⟨by decide, by decide, by decide, rfl, by decide,
   c3_delete_folder_recursive_subtree treeEx sessEx 2 (by decide) (by decide)
     (by decide) ⟨1, "home", none⟩ rfl (by decide)⟩

/-
Claim C9: path building.
-/

theorem homeRow_props {fs : List Folder} {h : Folder}
    (hh : homeRow fs = some h) : h.parent_id = none ∧ h.name = "home" := by
  have := List.find?_some hh
  simpa using this

theorem rootDist_lt {fs : List Folder} :
    ∀ {k x d : Nat}, rootDist fs k x = some d → d < k := by
  intro k
  induction k with
  | zero => intro x d hd; simp [rootDist] at hd
  | succ k ih =>
      intro x d hd
      cases hrow : findFolder fs x with
      | none => rw [rootDist_succ_absent hrow] at hd; cases hd
      | some f =>
          cases hp : f.parent_id with
          | none =>
              rw [rootDist_succ_root hrow hp] at hd
              injection hd with hd1
              omega
          | some p =>
              obtain ⟨dp, hdp, rfl⟩ := rootDist_parent_succ hrow hp hd
              have := ih hdp
              omega

theorem pathWalk_stop {fs : List Folder} {f : Folder}
    (hp : f.parent_id = none) (hname : f.name = "home") (fuel : Nat) :
    pathWalk fs (fuel + 1) (some f) = [] := by
  simp [pathWalk, hp, hname]

theorem pathWalk_step {fs : List Folder} {f : Folder} {p : Nat}
    (hp : f.parent_id = some p) (hp0 : p ≠ 0) (fuel : Nat) :
    pathWalk fs (fuel + 1) (some f) =
      f.name :: pathWalk fs fuel (findFolder fs p) := by
  simp [pathWalk, hp, hp0]

theorem ancestorNames_root (fs : List Folder) (root fuel : Nat) :
    ancestorNames fs root (fuel + 1) root = [] := by
  simp [ancestorNames]

theorem ancestorNames_step {fs : List Folder} {root x p : Nat} {f : Folder}
    (hne : x ≠ root) (hrow : findFolder fs x = some f)
    (hp : f.parent_id = some p) (fuel : Nat) :
    ancestorNames fs root (fuel + 1) x =
      ancestorNames fs root fuel p ++ [f.name] := by
  simp [ancestorNames, hne, hrow, hp]

theorem intercalate_go_append (s : String) :
    ∀ (l : List String) (x y : String),
      String.intercalate.go (x ++ y) s l =
        x ++ String.intercalate.go y s l := by
  intro l
  induction l with
  | nil => intro x y; rfl
  | cons b bs ih =>
      intro x y
      show String.intercalate.go ((x ++ y) ++ s ++ b) s bs =
        x ++ String.intercalate.go (y ++ s ++ b) s bs
      simp only [String.append_assoc]
      exact ih x (y ++ (s ++ b))

theorem intercalate_cons (s a : String) {l : List String} (hl : l ≠ []) :
    String.intercalate s (a :: l) = a ++ s ++ String.intercalate s l := by
  cases l with
  | nil => cases hl rfl
  | cons b bs =>
      show String.intercalate.go a s (b :: bs) = _
      show String.intercalate.go (a ++ s ++ b) s bs = _
      have h1 : a ++ s ++ b = (a ++ s) ++ b := rfl
      rw [h1, intercalate_go_append s bs (a ++ s) b]
      rfl

/-- Parallel-walk lemma: within the rooted tree of the root row h, the
reversed name list collected by the while loop of build_folder_path equals
the spec-side top-down ancestor name list. -/
theorem pathWalk_spec {fs : List Folder}
    (hnd : (folderIds fs).Nodup)
    (hall : ∀ f ∈ fs, rooted fs fs.length f.id = true)
    (hpos : ∀ f ∈ fs, 0 < f.id)
    {h : Folder} (hhome : homeRow fs = some h) :
    ∀ fuel x dx, rootDist fs fs.length x = some dx → dx < fuel →
      inSubtree fs h.id x = true →
      (pathWalk fs fuel (findFolder fs x)).reverse =
        ancestorNames fs h.id fuel x := by
  have hprops := homeRow_props hhome
  intro fuel
  induction fuel with
  | zero => intro x dx _ hfuel _; omega
  | succ fuel ih =>
      intro x dx hdx hfuel hsub
      by_cases hxh : x = h.id
      · subst hxh
        rw [findFolder_eq_of_mem hnd (homeRow_mem hhome),
          pathWalk_stop hprops.1 hprops.2, ancestorNames_root]
        rfl
      · cases hrow : findFolder fs x with
        | none => exact absurd (inSubtree_absent hrow hsub) hxh
        | some fx =>
            cases hp : fx.parent_id with
            | none =>
                rw [inSubtree_root hrow hp] at hsub
                exact absurd hsub hxh
            | some p =>
                obtain ⟨n, hn⟩ : ∃ n, fs.length = n + 1 :=
                  ⟨fs.length - 1, by have := length_pos_of_findFolder hrow; omega⟩
                have hrx : rooted fs fs.length x = true := present_rooted hall hrow
                have hrp : rooted fs n p = true := by
                  rw [hn] at hrx; exact rooted_step hrow hp hrx
                obtain ⟨fp, hfp⟩ := rooted_present hrp
                have hp0 : p ≠ 0 := by
                  have hfpmem := findFolder_mem hfp
                  have hfppos := hpos fp hfpmem.1
                  have hfpid := hfpmem.2
                  omega
                have hsubp : inSubtree fs h.id p = true := by
                  rw [inSubtree_step hrow hp hrx] at hsub
                  rcases hsub with h1 | h2
                  · exact absurd h1 hxh
                  · exact h2
                have hdx1 : rootDist fs (n + 1) x = some dx := by rwa [hn] at hdx
                obtain ⟨dp, hdpn, rfl⟩ := rootDist_parent_succ hrow hp hdx1
                have hdp : rootDist fs fs.length p = some dp :=
                  rootDist_mono hdpn (by omega)
                rw [pathWalk_step hp hp0, ancestorNames_step hxh hrow hp,
                  List.reverse_cons, ih p dp hdp (by omega) hsubp]

/-- Claim C9: on a well-formed store whose root row is h, the path built
for a folder fid of the rooted tree is the slash-joined segment list
"home" :: ancestorNames, where ancestorNames has exactly one name per
ancestor of fid below the root, fid included; for the root itself the
segment list is just ["home"], so the path is exactly "home", and every
path starts with "home".  The store is left unchanged. -/
theorem c9_build_folder_path_spec (st : DbState) (fid : Nat)
    (hwf : WFF st.folders) (h : Folder) (hhome : homeRow st.folders = some h)
    (hsub : inSubtree st.folders h.id fid = true) :
    build_folder_path st (some fid) =
      (st, String.intercalate " / "
        ("home" :: ancestorNames st.folders h.id (st.folders.length + 1) fid)) ∧
    (fid = h.id →
      ancestorNames st.folders h.id (st.folders.length + 1) fid = []) ∧
    (∃ rest, (build_folder_path st (some fid)).2 = "home" ++ rest) := by
  obtain ⟨hnd, hpos, hall⟩ := hwf
  have hmain : build_folder_path st (some fid) =
      (st, String.intercalate " / "
        ("home" :: ancestorNames st.folders h.id (st.folders.length + 1) fid)) := by
    unfold build_folder_path
    rw [get_home_folder_id_of_homeRow hhome]
    by_cases hxh : fid = h.id
    · have hbeq : (fid == h.id) = true := by simp [hxh]
      simp only [hbeq, if_true]
      rw [hxh, ancestorNames_root]
      rfl
    · have hbeq : (fid == h.id) = false := by simp [hxh]
      simp only [hbeq, Bool.false_eq_true, if_false]
      have hrowx : ∃ fx, findFolder st.folders fid = some fx := by
        cases hrow : findFolder st.folders fid with
        | none => exact absurd (inSubtree_absent hrow hsub) hxh
        | some fx => exact ⟨fx, rfl⟩
      obtain ⟨fx, hrow⟩ := hrowx
      have hrx : rooted st.folders st.folders.length fid = true :=
        present_rooted hall hrow
      obtain ⟨dx, hdx⟩ := rootDist_isSome_of_rooted hrx
      have hdxlt : dx < st.folders.length + 1 := by
        have := rootDist_lt hdx
        omega
      rw [pathWalk_spec hnd hall hpos hhome (st.folders.length + 1) fid dx hdx
        hdxlt hsub]
      have hnamesne :
          ancestorNames st.folders h.id (st.folders.length + 1) fid ≠ [] := by
        cases hp : fx.parent_id with
        | none =>
            rw [inSubtree_root hrow hp] at hsub
            exact absurd hsub hxh
        | some p =>
            rw [ancestorNames_step hxh hrow hp]
            simp
      rw [intercalate_cons " / " "home" hnamesne]
      rw [show ("home" : String) ++ " / " = "home / " from rfl]
  refine ⟨hmain, ?_, ?_⟩
  · intro hxh
    rw [hxh]
    exact ancestorNames_root st.folders h.id st.folders.length
  · rw [hmain]
    cases hnames : ancestorNames st.folders h.id (st.folders.length + 1) fid with
    | nil =>
        refine ⟨"", ?_⟩
        rw [show (" / ".intercalate ["home"]) = "home" from rfl,
          String.append_empty]
    | cons nm rest =>
        refine ⟨" / " ++ String.intercalate " / " (nm :: rest), ?_⟩
        rw [intercalate_cons " / " "home" (by simp), String.append_assoc]

/-- Witness for c9_build_folder_path_spec at folder 3 of the example store
(expected path: home / a / b). -/
theorem c9_build_folder_path_spec_witness :
    WFF treeEx.folders ∧
    homeRow treeEx.folders = some ⟨1, "home", none⟩ ∧
    inSubtree treeEx.folders (Folder.mk 1 "home" none).id 3 = true ∧
    (build_folder_path treeEx (some 3) =
      (treeEx, String.intercalate " / "
        ("home" :: ancestorNames treeEx.folders (Folder.mk 1 "home" none).id
          (treeEx.folders.length + 1) 3)) ∧
     ((3 : Nat) = (Folder.mk 1 "home" none).id →
       ancestorNames treeEx.folders (Folder.mk 1 "home" none).id
         (treeEx.folders.length + 1) 3 = []) ∧
     (∃ rest, (build_folder_path treeEx (some 3)).2 = "home" ++ rest)) :=
  ⟨by decide, rfl, by decide,
   c9_build_folder_path_spec treeEx 3 (by decide) ⟨1, "home", none⟩ rfl
     (by decide)⟩

end PromptBuilder
